import Mathlib

/-!
Verification development for `pcm_vis` (src/pcm_vis/src/main.rs), a
differential-testing harness for a partial-curve-matching engine.

Modelling conventions:
- `f64` values are idealized as rationals (`ℚ`); NaN/infinity behaviour is
  outside the model.
- `f64::sqrt` appears only in two places: in `Vector::distance` used by
  `curve_length` (kept abstract as a function parameter `sqrt : ℚ → ℚ`),
  and in comparisons `distance p q < t`, which are embedded exactly as
  `0 < t ∧ dist2 p q < t^2` (for ideal reals, `Real.sqrt s < t` with
  `0 ≤ s` is equivalent to `0 < t ∧ s < t^2`).
- The constant `EPS` comes from the external `pcm` crate and its value is
  not part of this repository; it is threaded through as a parameter.
- Rust's `Vec<T>` panics are modelled by returning `none` from an
  `Option`-valued function; this covers both out-of-bounds element
  indexing and out-of-range slicing (`&v[1..]` panics when `v` is empty).
- The types `Vector`, `Curve`, `LineBoundary`, `FSD` come from the external
  `pcm` crate; they are modelled from the spec (§3 Data Model) with exactly
  the fields the harness code reads.
-/

namespace PCMVis

/-- Modelled from the spec: `Vector2` (the `pcm` crate's `Vector`), an
(x, y) real pair. -/
structure Vector where
  x : ℚ
  y : ℚ
deriving DecidableEq, Repr

instance : Inhabited Vector := ⟨⟨0, 0⟩⟩

/-- Componentwise addition of vectors (the crate's `Add` impl). -/
def Vector.add (p q : Vector) : Vector := ⟨p.x + q.x, p.y + q.y⟩

/-- Scalar multiplication of a vector (the crate's `Mul<f64>` impl). -/
def Vector.smul (c : ℚ) (p : Vector) : Vector := ⟨c * p.x, c * p.y⟩

/-- Squared Euclidean distance.  `p.distance(q)` in the source is
`sqrt (dist2 p q)`; comparisons of the distance against a threshold are
embedded through `sqrtLt`. -/
def Vector.dist2 (p q : Vector) : ℚ := (p.x - q.x) ^ 2 + (p.y - q.y) ^ 2

/-- `sqrtLt s t` embeds the comparison `sqrt s < t` for `0 ≤ s`:
it holds exactly when `t` is positive and `s < t^2`. -/
def sqrtLt (s t : ℚ) : Prop := 0 < t ∧ s < t ^ 2

instance (s t : ℚ) : Decidable (sqrtLt s t) :=
  inferInstanceAs (Decidable (0 < t ∧ s < t ^ 2))

/-- A curve is an ordered sequence of points (`Curve = Vec<Vector>`). -/
abbrev Curve := List Vector

/-- Witness paths through the diagram (`type Steps = Vec<(f64, f64)>`). -/
abbrev Steps := List (ℚ × ℚ)

-- ===================================
-- Path Validator (`check_steps`)
-- ===================================

/-- Integer index extracted from a step coordinate: `_i.floor() as usize`.
Rust's `as usize` cast saturates at 0 for negative floats, which `Int.toNat`
mirrors. -/
def floorIdx (u : ℚ) : ℕ := (Int.floor u).toNat

/-- Fractional offset of a step coordinate: `_i - _i.floor()`. -/
def fracOf (u : ℚ) : ℚ := u - Int.floor u

/-- Models the Rust slice `&v[i..]`: the suffix from `i` when `i` does not
exceed the length, a panic (`none`) otherwise — in particular `&v[1..]`
panics on an empty vector. -/
def sliceFrom {α : Type _} (v : List α) (i : ℕ) : Option (List α) :=
  if i ≤ v.length then some (v.drop i) else none

/-- Matched point on a curve for one step coordinate, following the body of
the distance loop in `check_steps`: `c[i]` when the fractional offset is 0,
otherwise `(1 - off) * c[i] + off * c[i+1]`.  `none` models the Rust
indexing panic when an index is out of bounds. -/
def matchedPoint (c : Curve) (u : ℚ) : Option Vector :=
  if fracOf u = 0 then c.get? (floorIdx u)
  else
    match c.get? (floorIdx u), c.get? (floorIdx u + 1) with
    | some p, some p' =>
        some (Vector.add (Vector.smul (1 - fracOf u) p) (Vector.smul (fracOf u) p'))
    | _, _ => none

/-- Validation errors reported by `check_steps`, keyed by the offending
step data exactly as the formatted Rust error strings are. -/
inductive StepErr where
  | decreasing (p1 p2 : ℚ × ℚ)
  | tooFar (s : ℚ × ℚ)
deriving DecidableEq, Repr

/-- Body of the first loop of `check_steps`: scan the zipped consecutive
pairs and return the first monotonicity violation. -/
def checkMonoPairs : List ((ℚ × ℚ) × (ℚ × ℚ)) → Except StepErr Unit
  | [] => Except.ok ()
  | (p1, p2) :: rest =>
      if p2.1 < p1.1 ∨ p2.2 < p1.2 then Except.error (StepErr.decreasing p1 p2)
      else checkMonoPairs rest

/-- First loop of `check_steps`: `zip(&steps, &steps[1..])`.  The slice
`&steps[1..]` panics (`none`) when `steps` is empty. -/
def checkMono (steps : Steps) : Option (Except StepErr Unit) :=
  match sliceFrom steps 1 with
  | none => none
  | some t => some (checkMonoPairs (steps.zip t))

/-- Second loop of `check_steps`: walk the steps in order, interpolate both
matched points and require the Euclidean distance to be `< eps + EPS`.
`none` models an indexing panic. -/
def checkDist (c1 c2 : Curve) (eps EPS : ℚ) : Steps → Option (Except StepErr Unit)
  | [] => some (Except.ok ())
  | s :: rest =>
      match matchedPoint c1 s.1, matchedPoint c2 s.2 with
      | some p, some q =>
          if sqrtLt (Vector.dist2 p q) (eps + EPS) then checkDist c1 c2 eps EPS rest
          else some (Except.error (StepErr.tooFar s))
      | _, _ => none

/-- The Path Validator `check_steps` from the source: the complete
monotonicity pass runs first (panicking on empty input), then the distance
pass. -/
def check_steps (c1 c2 : Curve) (steps : Steps) (eps EPS : ℚ) :
    Option (Except StepErr Unit) :=
  match checkMono steps with
  | none => none
  | some (Except.error e) => some (Except.error e)
  | some (Except.ok _) => checkDist c1 c2 eps EPS steps

-- Declarative (spec-side) descriptions of the two checks.

/-- One step of the monotonicity requirement: coordinatewise `≤`. -/
def StepMono (p q : ℚ × ℚ) : Prop := p.1 ≤ q.1 ∧ p.2 ≤ q.2

instance (p q : ℚ × ℚ) : Decidable (StepMono p q) :=
  inferInstanceAs (Decidable (p.1 ≤ q.1 ∧ p.2 ≤ q.2))

/-- Boolean form of the distance bound at a single step: both matched
points exist and their Euclidean distance is `< eps + EPS`. -/
def stepWithinB (c1 c2 : Curve) (eps EPS : ℚ) (s : ℚ × ℚ) : Bool :=
  match matchedPoint c1 s.1, matchedPoint c2 s.2 with
  | some p, some q => decide (sqrtLt (Vector.dist2 p q) (eps + EPS))
  | _, _ => false

/-- Index precondition of the engine contract for a single coordinate: the
integer part indexes into the curve, and when the fractional offset is
nonzero so does its successor. -/
def IndexOk (c : Curve) (u : ℚ) : Prop :=
  floorIdx u < c.length ∧ (fracOf u ≠ 0 → floorIdx u + 1 < c.length)

instance (c : Curve) (u : ℚ) : Decidable (IndexOk c u) :=
  inferInstanceAs (Decidable (_ ∧ _))

/-- Index precondition for a whole `Steps` sequence. -/
def StepsPre (c1 c2 : Curve) (steps : Steps) : Prop :=
  ∀ s ∈ steps, IndexOk c1 s.1 ∧ IndexOk c2 s.2

instance (c1 c2 : Curve) (steps : Steps) : Decidable (StepsPre c1 c2 steps) :=
  inferInstanceAs (Decidable (∀ s ∈ steps, IndexOk c1 s.1 ∧ IndexOk c2 s.2))

/-- First consecutive pair violating monotonicity, in scan order. -/
def firstDecreasing (steps : Steps) : Option ((ℚ × ℚ) × (ℚ × ℚ)) :=
  (steps.zip steps.tail).find? (fun pq => decide (pq.2.1 < pq.1.1 ∨ pq.2.2 < pq.1.2))

/-- First step violating the distance bound, in scan order. -/
def firstFar (c1 c2 : Curve) (eps EPS : ℚ) (steps : Steps) : Option (ℚ × ℚ) :=
  steps.find? (fun s => ! stepWithinB c1 c2 eps EPS s)

/-- The first violation `check_steps` reports: a monotonicity violation if
any exists (that pass runs to completion first), else the first
distance-bound violation. -/
def firstViol (c1 c2 : Curve) (eps EPS : ℚ) (steps : Steps) : Option StepErr :=
  match firstDecreasing steps with
  | some pq => some (StepErr.decreasing pq.1 pq.2)
  | none => (firstFar c1 c2 eps EPS steps).map StepErr.tooFar

theorem indexOk_matchedPoint {c : Curve} {u : ℚ} (h : IndexOk c u) :
    ∃ p, matchedPoint c u = some p := by
  obtain ⟨h1, h2⟩ := h
  unfold matchedPoint
  by_cases hf : fracOf u = 0
  · simp only [hf, if_true]
    exact ⟨_, List.get?_eq_get h1⟩
  · simp only [hf, if_false]
    obtain ⟨p, hp⟩ : ∃ p, c.get? (floorIdx u) = some p :=
      ⟨_, List.get?_eq_get h1⟩
    obtain ⟨p', hp'⟩ : ∃ p', c.get? (floorIdx u + 1) = some p' :=
      ⟨_, List.get?_eq_get (h2 hf)⟩
    rw [hp, hp']
    exact ⟨_, rfl⟩

theorem checkMonoPairs_eq (l : List ((ℚ × ℚ) × (ℚ × ℚ))) :
    checkMonoPairs l =
      match l.find? (fun pq => decide (pq.2.1 < pq.1.1 ∨ pq.2.2 < pq.1.2)) with
      | some pq => Except.error (StepErr.decreasing pq.1 pq.2)
      | none => Except.ok () := by
  induction l with
  | nil => rfl
  | cons pq rest ih =>
      obtain ⟨p1, p2⟩ := pq
      show (if p2.1 < p1.1 ∨ p2.2 < p1.2 then Except.error (StepErr.decreasing p1 p2)
            else checkMonoPairs rest) = _
      by_cases h : p2.1 < p1.1 ∨ p2.2 < p1.2
      · rw [if_pos h, List.find?_cons_of_pos _ (by simpa using h)]
      · rw [if_neg h, List.find?_cons_of_neg _ (by simpa using h), ih]

theorem sliceFrom_one_cons {α : Type _} (p : α) (rest : List α) :
    sliceFrom (p :: rest) 1 = some rest := by
  unfold sliceFrom
  rw [if_pos (by simp)]
  rfl

/-- On empty steps the monotonicity pass panics: `&steps[1..]` is out of
range. -/
theorem checkMono_nil : checkMono [] = none := rfl

theorem checkMono_eq (steps : Steps) (hne : steps ≠ []) :
    checkMono steps =
      some (match firstDecreasing steps with
            | some pq => Except.error (StepErr.decreasing pq.1 pq.2)
            | none => Except.ok ()) := by
  obtain ⟨p, rest, rfl⟩ := List.exists_cons_of_ne_nil hne
  show (match sliceFrom (p :: rest) 1 with
        | none => none
        | some t => some (checkMonoPairs ((p :: rest).zip t))) = _
  rw [sliceFrom_one_cons]
  show some (checkMonoPairs ((p :: rest).zip rest)) = _
  rw [checkMonoPairs_eq]
  rfl

theorem checkDist_eq (c1 c2 : Curve) (eps EPS : ℚ) (steps : Steps)
    (h : ∀ s ∈ steps, IndexOk c1 s.1 ∧ IndexOk c2 s.2) :
    checkDist c1 c2 eps EPS steps =
      some (match firstFar c1 c2 eps EPS steps with
            | some s => Except.error (StepErr.tooFar s)
            | none => Except.ok ()) := by
  induction steps with
  | nil => rfl
  | cons s rest ih =>
      obtain ⟨hp, hq⟩ := h s (List.mem_cons_self s rest)
      obtain ⟨p, hp'⟩ := indexOk_matchedPoint hp
      obtain ⟨q, hq'⟩ := indexOk_matchedPoint hq
      unfold checkDist firstFar
      rw [hp', hq']
      by_cases hw : sqrtLt (Vector.dist2 p q) (eps + EPS)
      · have hwb : stepWithinB c1 c2 eps EPS s = true := by
          unfold stepWithinB; rw [hp', hq']; exact decide_eq_true hw
        simp only [hw, if_true, List.find?_cons, hwb, Bool.not_true]
        exact ih (fun t ht => h t (List.mem_cons_of_mem s ht))
      · have hwb : stepWithinB c1 c2 eps EPS s = false := by
          unfold stepWithinB; rw [hp', hq']; exact decide_eq_false hw
        simp [hw, List.find?_cons, hwb]

/-- Master characterization: on nonempty steps and under the index
precondition, `check_steps` returns exactly the first violation
(monotonicity pass first), or `Ok`. -/
theorem check_steps_eq (c1 c2 : Curve) (steps : Steps) (eps EPS : ℚ)
    (hne : steps ≠ []) (h : StepsPre c1 c2 steps) :
    check_steps c1 c2 steps eps EPS =
      some (match firstViol c1 c2 eps EPS steps with
            | some e => Except.error e
            | none => Except.ok ()) := by
  unfold check_steps firstViol
  rw [checkMono_eq steps hne]
  cases hd : firstDecreasing steps with
  | some pq => simp
  | none =>
      simp only []
      rw [checkDist_eq c1 c2 eps EPS steps h]
      cases hf : firstFar c1 c2 eps EPS steps <;> simp

/-- Chain' of coordinatewise `≤` is the same as no decreasing adjacent
pair being found. -/
theorem firstDecreasing_eq_none_iff (steps : Steps) :
    firstDecreasing steps = none ↔ List.Chain' StepMono steps := by
  induction steps with
  | nil => simp [firstDecreasing]
  | cons p rest ih =>
      cases rest with
      | nil => simp [firstDecreasing]
      | cons q rest' =>
          rw [List.chain'_cons, ← ih]
          unfold firstDecreasing
          simp only [List.tail_cons, List.zip_cons_cons]
          by_cases h : q.1 < p.1 ∨ q.2 < p.2
          · rw [List.find?_cons_of_pos _ (by simpa using h)]
            constructor
            · intro hc
              exact absurd hc (Option.some_ne_none _)
            · rintro ⟨⟨h1, h2⟩, -⟩
              rcases h with h | h
              · exact absurd h1 (not_le.mpr h)
              · exact absurd h2 (not_le.mpr h)
          · rw [List.find?_cons_of_neg _ (by simpa using h)]
            push_neg at h
            have hm : StepMono p q := ⟨h.1, h.2⟩
            simp [hm]

theorem firstFar_eq_none_iff (c1 c2 : Curve) (eps EPS : ℚ) (steps : Steps) :
    firstFar c1 c2 eps EPS steps = none ↔
      ∀ s ∈ steps, stepWithinB c1 c2 eps EPS s = true := by
  unfold firstFar
  rw [List.find?_eq_none]
  constructor
  · intro h s hs
    have := h s hs
    simpa using this
  · intro h s hs
    simpa using h s hs

/-- Computable decision procedure for `List.Chain'`, used so that concrete
witnesses evaluate by `decide` (Mathlib's instance does not reduce). -/
def chainDec {α : Type _} (R : α → α → Prop) [DecidableRel R] :
    (l : List α) → Decidable (List.Chain' R l)
  | [] => Decidable.isTrue List.chain'_nil
  | [_] => Decidable.isTrue (List.chain'_singleton _)
  | a :: b :: l =>
      match chainDec R (b :: l) with
      | Decidable.isTrue h =>
          if hR : R a b then Decidable.isTrue (List.chain'_cons.mpr ⟨hR, h⟩)
          else Decidable.isFalse (fun hc => hR (List.chain'_cons.mp hc).1)
      | Decidable.isFalse h => Decidable.isFalse (fun hc => h (List.chain'_cons.mp hc).2)

instance chainDecInst {α : Type _} (R : α → α → Prop) [DecidableRel R] (l : List α) :
    Decidable (List.Chain' R l) := chainDec R l

theorem firstViol_eq_none_iff (c1 c2 : Curve) (eps EPS : ℚ) (steps : Steps) :
    firstViol c1 c2 eps EPS steps = none ↔
      (List.Chain' StepMono steps ∧ ∀ s ∈ steps, stepWithinB c1 c2 eps EPS s = true) := by
  unfold firstViol
  cases hd : firstDecreasing steps with
  | some pq =>
      have hc : ¬ List.Chain' StepMono steps := by
        rw [← firstDecreasing_eq_none_iff, hd]
        simp
      simp [hc]
  | none =>
      have hc : List.Chain' StepMono steps := by
        rw [← firstDecreasing_eq_none_iff, hd]
      simp [Option.map_eq_none', firstFar_eq_none_iff, hc]

/-- Counterexample to C1 as stated: on the empty steps sequence both
claimed conditions hold vacuously, yet `check_steps` does not return `Ok`
— the slice `&steps[1..]` panics on an empty vector. -/
theorem check_steps_empty_counterexample :
    List.Chain' StepMono ([] : Steps) ∧
    (∀ s ∈ ([] : Steps), stepWithinB [⟨0, 0⟩] [⟨0, 0⟩] 1 1 s = true) ∧
    check_steps [⟨0, 0⟩] [⟨0, 0⟩] [] 1 1 = none :=
  ⟨List.chain'_nil, fun s hs => absurd hs (List.not_mem_nil s), rfl⟩

/-- C1 amended: on a nonempty steps sequence (the empty one panics in the
slice `&steps[1..]`), the Path Validator `check_steps` returns `Ok` if and
only if the step sequence is coordinatewise non-decreasing between
consecutive steps and the Euclidean distance between the two
interpolation-matched points of every step is strictly below `eps + EPS`;
on a violation it returns the first violation found (the monotonicity pass
runs to completion first). -/
theorem check_steps_ok_iff_first_violation (c1 c2 : Curve) (steps : Steps)
    (eps EPS : ℚ) (hne : steps ≠ []) (h : StepsPre c1 c2 steps) :
    (check_steps c1 c2 steps eps EPS = some (Except.ok ()) ↔
      (List.Chain' StepMono steps ∧
       ∀ s ∈ steps, stepWithinB c1 c2 eps EPS s = true)) ∧
    (∀ e, check_steps c1 c2 steps eps EPS = some (Except.error e) →
      firstViol c1 c2 eps EPS steps = some e) := by
  have hm := check_steps_eq c1 c2 steps eps EPS hne h
  constructor
  · rw [hm, ← firstViol_eq_none_iff c1 c2 eps EPS steps]
    cases hv : firstViol c1 c2 eps EPS steps with
    | some e => simp
    | none => simp
  · intro e he
    rw [hm] at he
    cases hv : firstViol c1 c2 eps EPS steps with
    | some e' =>
        rw [hv] at he
        simp only [Option.some.injEq, Except.error.injEq] at he
        rw [he]
    | none =>
        rw [hv] at he
        simp at he

/-- Witness for C1 at a concrete input satisfying the index precondition. -/
theorem check_steps_ok_iff_first_violation_witness :
    StepsPre [⟨0, 0⟩, ⟨1, 0⟩] [⟨0, 0⟩, ⟨1, 0⟩] [(0, 0), (1, 1)] ∧
    check_steps [⟨0, 0⟩, ⟨1, 0⟩] [⟨0, 0⟩, ⟨1, 0⟩] [(0, 0), (1, 1)] 1 (1 / 1000) =
      some (Except.ok ()) :=
  ⟨by with_unfolding_all decide,
   (check_steps_ok_iff_first_violation [⟨0, 0⟩, ⟨1, 0⟩] [⟨0, 0⟩, ⟨1, 0⟩]
      [(0, 0), (1, 1)] 1 (1 / 1000) (by simp) (by with_unfolding_all decide)).1.mpr
      (by with_unfolding_all decide)⟩

/-- Counterexample to C8 as stated: the empty steps sequence satisfies the
index precondition vacuously, yet `check_steps` panics (the slice
`&steps[1..]` is out of range), so the claimed totality fails. -/
theorem check_steps_pre_empty_counterexample :
    StepsPre [⟨0, 0⟩] [⟨0, 0⟩] [] ∧
    check_steps [⟨0, 0⟩] [⟨0, 0⟩] [] 1 1 = none :=
  ⟨fun s hs => absurd hs (List.not_mem_nil s), rfl⟩

/-- C8 amended: under the engine contract (integer parts index the curve,
and the successor index is also valid whenever the fractional offset is
nonzero) and for nonempty steps, `check_steps` performs no out-of-bounds
access: it returns `Ok` or a validation error (the `none` that models a
Rust panic cannot occur).  On the empty steps sequence the initial slice
`&steps[1..]` panics regardless of the precondition. -/
theorem check_steps_no_out_of_bounds (c1 c2 : Curve) (steps : Steps)
    (eps EPS : ℚ) (hne : steps ≠ []) (h : StepsPre c1 c2 steps) :
    ∃ r, check_steps c1 c2 steps eps EPS = some r := by
  rw [check_steps_eq c1 c2 steps eps EPS hne h]
  exact ⟨_, rfl⟩

/-- Witness for C8 at a concrete input with a fractional offset. -/
theorem check_steps_no_out_of_bounds_witness :
    StepsPre [⟨0, 0⟩, ⟨1, 0⟩] [⟨0, 0⟩, ⟨1, 0⟩] [(1 / 2, 1 / 2)] ∧
    ∃ r, check_steps [⟨0, 0⟩, ⟨1, 0⟩] [⟨0, 0⟩, ⟨1, 0⟩] [(1 / 2, 1 / 2)] 1 (1 / 1000) =
      some r :=
  ⟨by with_unfolding_all decide,
   check_steps_no_out_of_bounds [⟨0, 0⟩, ⟨1, 0⟩] [⟨0, 0⟩, ⟨1, 0⟩]
     [(1 / 2, 1 / 2)] 1 (1 / 1000) (by simp) (by with_unfolding_all decide)⟩

/-- Counterexample to C10 as stated: the empty sequence is not accepted —
`check_steps` panics on it (slice `&steps[1..]` out of range) instead of
returning `Ok`. -/
theorem check_steps_empty_not_accepted_counterexample :
    check_steps [⟨0, 0⟩, ⟨1, 0⟩] [⟨0, 0⟩, ⟨1, 0⟩] [] 1 (1 / 1000) = none := rfl

/-- C10 amended: `check_steps` imposes no condition on the endpoints of a
nonempty sequence: any nonempty coordinatewise non-decreasing sequence
whose steps all meet the distance bound is accepted (no hypothesis relates
the first step to the diagram origin or the last step to the terminus).
The empty sequence, however, is not accepted: the slice `&steps[1..]`
panics on it. -/
theorem check_steps_no_endpoint_condition (c1 c2 : Curve) (steps : Steps)
    (eps EPS : ℚ) (hne : steps ≠ []) (h : StepsPre c1 c2 steps)
    (hmono : List.Chain' StepMono steps)
    (hwithin : ∀ s ∈ steps, stepWithinB c1 c2 eps EPS s = true) :
    check_steps c1 c2 steps eps EPS = some (Except.ok ()) ∧
    check_steps c1 c2 [] eps EPS = none := by
  refine ⟨?_, rfl⟩
  rw [check_steps_eq c1 c2 steps eps EPS hne h,
    (firstViol_eq_none_iff c1 c2 eps EPS steps).mpr ⟨hmono, hwithin⟩]

/-- Witness for C10: a singleton interior step, whose first point is not
the diagram origin and whose last point is not the terminus, is accepted. -/
theorem check_steps_no_endpoint_condition_witness :
    check_steps [⟨0, 0⟩, ⟨1, 0⟩, ⟨2, 0⟩] [⟨0, 0⟩, ⟨1, 0⟩, ⟨2, 0⟩] [(1, 1)] 1 (1 / 1000) =
      some (Except.ok ()) ∧
    check_steps [⟨0, 0⟩, ⟨1, 0⟩, ⟨2, 0⟩] [⟨0, 0⟩, ⟨1, 0⟩, ⟨2, 0⟩] [] 1 (1 / 1000) =
      none :=
  check_steps_no_endpoint_condition [⟨0, 0⟩, ⟨1, 0⟩, ⟨2, 0⟩] [⟨0, 0⟩, ⟨1, 0⟩, ⟨2, 0⟩]
    [(1, 1)] 1 (1 / 1000) (by simp) (by with_unfolding_all decide)
    (by with_unfolding_all decide) (by with_unfolding_all decide)

-- ===========================================
-- Diagram Verifier (`check_corner_consistency`)
-- ===========================================

/-- Modelled from the spec: `LineBoundary { a, b }` from the `pcm` crate,
the sub-interval of a unit grid-cell edge. -/
structure LineBoundary where
  a : ℚ
  b : ℚ
deriving DecidableEq, Repr

/-- Modelled from the spec: the free-space diagram of the `pcm` crate, with
exactly the fields read by the harness: dimensions `n × m`, per-axis grid
dimensions `dims`, the optional boundary of every edge `segs (axis, x, y)`,
and the boolean corner grid. -/
structure FSD where
  n : ℕ
  m : ℕ
  dims0 : ℕ × ℕ
  dims1 : ℕ × ℕ
  segs : ℕ × ℕ × ℕ → Option LineBoundary
  corners : ℕ × ℕ → Bool

/-- `fsd.dims[axis]` of the source. -/
def FSD.dims (fsd : FSD) (axis : ℕ) : ℕ × ℕ :=
  if axis = 0 then fsd.dims0 else fsd.dims1

/-- Errors of the Diagram Verifier, one constructor per `return Err` site
of `check_corner_consistency`, carrying the edge and lattice coordinates
the formatted message names. -/
inductive CornerErr where
  | startAtZero (axis x y i j : ℕ)
  | endAtOne (axis x y i j : ℕ)
  | startNotFree (axis x y i j : ℕ)
  | missingCurr (axis x y i j : ℕ)
  | endNotFree (axis x y i j : ℕ)
  | missingPrev (axis x y i j : ℕ)
deriving DecidableEq, Repr

/-- Sequencing of two checks with early error return. -/
def seqE {ε : Type _} (c1 c2 : Except ε Unit) : Except ε Unit :=
  match c1 with
  | Except.error e => Except.error e
  | Except.ok _ => c2

/-- Body of the triple loop of `check_corner_consistency` for one lattice
coordinate `(i, j)` and one `axis`; `(x, y) = [(i,j), (j,i)][axis]` and the
current edge is checked before the previous edge, exactly as in the
source. -/
def checkCell (EPS : ℚ) (fsd : FSD) (i j axis : ℕ) : Except CornerErr Unit :=
  let hgt := (fsd.dims axis).2
  let x := if axis = 0 then i else j
  let y := if axis = 0 then j else i
  if fsd.corners (i, j) then
    seqE
      (if y < hgt then
        match fsd.segs (axis, x, y) with
        | some lb =>
            if EPS ≤ lb.a then Except.error (CornerErr.startNotFree axis x y i j)
            else Except.ok ()
        | none => Except.error (CornerErr.missingCurr axis x y i j)
       else Except.ok ())
      (if 0 < y then
        match fsd.segs (axis, x, y - 1) with
        | some lb =>
            if lb.b < 1 - EPS then Except.error (CornerErr.endNotFree axis x (y - 1) i j)
            else Except.ok ()
        | none => Except.error (CornerErr.missingPrev axis x (y - 1) i j)
       else Except.ok ())
  else
    seqE
      (if y < hgt then
        match fsd.segs (axis, x, y) with
        | some lb =>
            if lb.a = 0 then Except.error (CornerErr.startAtZero axis x y i j)
            else Except.ok ()
        | none => Except.ok ()
       else Except.ok ())
      (if 0 < y then
        match fsd.segs (axis, x, y - 1) with
        | some lb =>
            if lb.b = 1 then Except.error (CornerErr.endAtOne axis x (y - 1) i j)
            else Except.ok ()
        | none => Except.ok ()
       else Except.ok ())

/-- Deterministic scan order of `check_corner_consistency`: `j` outer, `i`
inner, axis 0 then axis 1. -/
def scanCells (n m : ℕ) : List (ℕ × ℕ × ℕ) :=
  (List.range m).flatMap (fun j => (List.range n).flatMap (fun i => [(i, j, 0), (i, j, 1)]))

/-- Runs a list of checks, stopping at the first error. -/
def runChecks {α ε : Type _} (f : α → Except ε Unit) : List α → Except ε Unit
  | [] => Except.ok ()
  | x :: xs =>
      match f x with
      | Except.error e => Except.error e
      | Except.ok _ => runChecks f xs

/-- The Diagram Verifier `check_corner_consistency` from the source. -/
def check_corner_consistency (EPS : ℚ) (fsd : FSD) : Except CornerErr Unit :=
  runChecks (fun t => checkCell EPS fsd t.1 t.2.1 t.2.2) (scanCells fsd.n fsd.m)

/-- Boolean: the optional boundary exists and starts within `EPS` of 0. -/
def startsFreeB (EPS : ℚ) (o : Option LineBoundary) : Bool :=
  match o with
  | some lb => decide (lb.a < EPS)
  | none => false

/-- Boolean: the optional boundary exists and ends within `EPS` of 1. -/
def endsFreeB (EPS : ℚ) (o : Option LineBoundary) : Bool :=
  match o with
  | some lb => decide (1 - EPS ≤ lb.b)
  | none => false

/-- Boolean: if a boundary exists, its start is not exactly 0. -/
def noStartAtZeroB (o : Option LineBoundary) : Bool :=
  match o with
  | some lb => decide (lb.a ≠ 0)
  | none => true

/-- Boolean: if a boundary exists, its end is not exactly 1. -/
def noEndAtOneB (o : Option LineBoundary) : Bool :=
  match o with
  | some lb => decide (lb.b ≠ 1)
  | none => true

/-- Requirement on the current edge at a corner: where applicable, a
boundary exists starting within `EPS` of 0. -/
def CurrFree (EPS : ℚ) (fsd : FSD) (i j axis : ℕ) : Prop :=
  (if axis = 0 then j else i) < (fsd.dims axis).2 →
    startsFreeB EPS
      (fsd.segs (axis, if axis = 0 then i else j, if axis = 0 then j else i)) = true

/-- Requirement on the previous edge at a corner: where applicable, a
boundary exists ending within `EPS` of 1. -/
def PrevFree (EPS : ℚ) (fsd : FSD) (i j axis : ℕ) : Prop :=
  0 < (if axis = 0 then j else i) →
    endsFreeB EPS
      (fsd.segs (axis, if axis = 0 then i else j, (if axis = 0 then j else i) - 1)) = true

/-- Requirement on the current edge without a corner: any existing boundary
does not start at exactly 0. -/
def CurrNoZero (fsd : FSD) (i j axis : ℕ) : Prop :=
  (if axis = 0 then j else i) < (fsd.dims axis).2 →
    noStartAtZeroB
      (fsd.segs (axis, if axis = 0 then i else j, if axis = 0 then j else i)) = true

/-- Requirement on the previous edge without a corner: any existing
boundary does not end at exactly 1. -/
def PrevNoOne (fsd : FSD) (i j axis : ℕ) : Prop :=
  0 < (if axis = 0 then j else i) →
    noEndAtOneB
      (fsd.segs (axis, if axis = 0 then i else j, (if axis = 0 then j else i) - 1)) = true

instance (EPS : ℚ) (fsd : FSD) (i j axis : ℕ) : Decidable (CurrFree EPS fsd i j axis) :=
  inferInstanceAs (Decidable (_ → _))

instance (EPS : ℚ) (fsd : FSD) (i j axis : ℕ) : Decidable (PrevFree EPS fsd i j axis) :=
  inferInstanceAs (Decidable (_ → _))

instance (fsd : FSD) (i j axis : ℕ) : Decidable (CurrNoZero fsd i j axis) :=
  inferInstanceAs (Decidable (_ → _))

instance (fsd : FSD) (i j axis : ℕ) : Decidable (PrevNoOne fsd i j axis) :=
  inferInstanceAs (Decidable (_ → _))

/-- Declarative corner-consistency condition at one lattice coordinate and
one axis, as the spec states it. -/
def CornerConsistentAt (EPS : ℚ) (fsd : FSD) (i j axis : ℕ) : Prop :=
  (fsd.corners (i, j) = true → CurrFree EPS fsd i j axis ∧ PrevFree EPS fsd i j axis) ∧
  (fsd.corners (i, j) = false → CurrNoZero fsd i j axis ∧ PrevNoOne fsd i j axis)

instance (EPS : ℚ) (fsd : FSD) (i j axis : ℕ) :
    Decidable (CornerConsistentAt EPS fsd i j axis) :=
  inferInstanceAs (Decidable (_ ∧ _))

theorem seqE_ok_iff {ε : Type _} (c1 c2 : Except ε Unit) :
    seqE c1 c2 = Except.ok () ↔ c1 = Except.ok () ∧ c2 = Except.ok () := by
  cases c1 with
  | error e => simp [seqE]
  | ok u => cases u; simp [seqE]

theorem checkA_ok_iff (EPS : ℚ) (o : Option LineBoundary) (c : Prop) [Decidable c]
    (e1 e2 : CornerErr) :
    (if c then
      (match o with
       | some lb => if EPS ≤ lb.a then Except.error e1 else Except.ok ()
       | none => Except.error e2)
     else Except.ok ()) = Except.ok ()
    ↔ (c → startsFreeB EPS o = true) := by
  by_cases hc : c
  · simp only [if_pos hc, hc, forall_const]
    cases o with
    | none => simp [startsFreeB]
    | some lb =>
        by_cases h : EPS ≤ lb.a
        · simp [h, startsFreeB, not_lt.mpr h]
        · simp [h, startsFreeB, not_le.mp h]
  · simp [hc]

theorem checkB_ok_iff (EPS : ℚ) (o : Option LineBoundary) (c : Prop) [Decidable c]
    (e1 e2 : CornerErr) :
    (if c then
      (match o with
       | some lb => if lb.b < 1 - EPS then Except.error e1 else Except.ok ()
       | none => Except.error e2)
     else Except.ok ()) = Except.ok ()
    ↔ (c → endsFreeB EPS o = true) := by
  by_cases hc : c
  · simp only [if_pos hc, hc, forall_const]
    cases o with
    | none => simp [endsFreeB]
    | some lb =>
        by_cases h : lb.b < 1 - EPS
        · simp [h, endsFreeB, not_le.mpr h]
        · simp [h, endsFreeB, not_lt.mp h]
  · simp [hc]

theorem checkC_ok_iff (o : Option LineBoundary) (c : Prop) [Decidable c]
    (e1 : CornerErr) :
    (if c then
      (match o with
       | some lb => if lb.a = 0 then Except.error e1 else Except.ok ()
       | none => Except.ok ())
     else Except.ok ()) = Except.ok ()
    ↔ (c → noStartAtZeroB o = true) := by
  by_cases hc : c
  · simp only [if_pos hc, hc, forall_const]
    cases o with
    | none => simp [noStartAtZeroB]
    | some lb =>
        by_cases h : lb.a = 0
        · simp [h, noStartAtZeroB]
        · simp [h, noStartAtZeroB]
  · simp [hc]

theorem checkD_ok_iff (o : Option LineBoundary) (c : Prop) [Decidable c]
    (e1 : CornerErr) :
    (if c then
      (match o with
       | some lb => if lb.b = 1 then Except.error e1 else Except.ok ()
       | none => Except.ok ())
     else Except.ok ()) = Except.ok ()
    ↔ (c → noEndAtOneB o = true) := by
  by_cases hc : c
  · simp only [if_pos hc, hc, forall_const]
    cases o with
    | none => simp [noEndAtOneB]
    | some lb =>
        by_cases h : lb.b = 1
        · simp [h, noEndAtOneB]
        · simp [h, noEndAtOneB]
  · simp [hc]

theorem checkCell_ok_iff (EPS : ℚ) (fsd : FSD) (i j axis : ℕ) :
    checkCell EPS fsd i j axis = Except.ok () ↔ CornerConsistentAt EPS fsd i j axis := by
  unfold CornerConsistentAt
  cases hc : fsd.corners (i, j) with
  | true =>
      simp only [checkCell, hc, if_true]
      rw [seqE_ok_iff, checkA_ok_iff, checkB_ok_iff]
      simp [CurrFree, PrevFree]
  | false =>
      simp only [checkCell, hc, Bool.false_eq_true, if_false]
      rw [seqE_ok_iff, checkC_ok_iff, checkD_ok_iff]
      simp [CurrNoZero, PrevNoOne]

theorem runChecks_ok_iff {α ε : Type _} (f : α → Except ε Unit) (l : List α) :
    runChecks f l = Except.ok () ↔ ∀ x ∈ l, f x = Except.ok () := by
  induction l with
  | nil => simp [runChecks]
  | cons x xs ih =>
      simp only [runChecks]
      cases hf : f x with
      | error e =>
          constructor
          · intro h
            exact absurd h (by simp)
          · intro h
            have := h x (List.mem_cons_self x xs)
            rw [hf] at this
            exact absurd this (by simp)
      | ok u =>
          cases u
          simp [hf, ih]

theorem mem_scanCells (n m : ℕ) (i j axis : ℕ) :
    (i, j, axis) ∈ scanCells n m ↔ i < n ∧ j < m ∧ (axis = 0 ∨ axis = 1) := by
  unfold scanCells
  simp only [List.mem_flatMap, List.mem_range, List.mem_cons,
    List.not_mem_nil, or_false, Prod.mk.injEq]
  constructor
  · rintro ⟨j', hj', i', hi', ⟨rfl, rfl, rfl⟩ | ⟨rfl, rfl, rfl⟩⟩
    · exact ⟨hi', hj', Or.inl rfl⟩
    · exact ⟨hi', hj', Or.inr rfl⟩
  · rintro ⟨hi, hj, rfl | rfl⟩
    · exact ⟨j, hj, i, hi, Or.inl ⟨rfl, rfl, rfl⟩⟩
    · exact ⟨j, hj, i, hi, Or.inr ⟨rfl, rfl, rfl⟩⟩

/-- Characterization shared by the claims about the Diagram Verifier. -/
theorem corner_consistency_characterization (EPS : ℚ) (fsd : FSD) :
    check_corner_consistency EPS fsd = Except.ok () ↔
      ∀ i ∈ List.range fsd.n, ∀ j ∈ List.range fsd.m, ∀ axis ∈ ([0, 1] : List ℕ),
        CornerConsistentAt EPS fsd i j axis := by
  unfold check_corner_consistency
  rw [runChecks_ok_iff]
  constructor
  · intro h i hi j hj axis hax
    rw [List.mem_range] at hi hj
    have hax' : axis = 0 ∨ axis = 1 := by simpa using hax
    have := h (i, j, axis) ((mem_scanCells fsd.n fsd.m i j axis).mpr ⟨hi, hj, hax'⟩)
    exact (checkCell_ok_iff EPS fsd i j axis).mp this
  · intro h x hx
    obtain ⟨i, j, axis⟩ := x
    obtain ⟨hi, hj, hax⟩ := (mem_scanCells fsd.n fsd.m i j axis).mp hx
    show checkCell EPS fsd i j axis = Except.ok ()
    rw [checkCell_ok_iff]
    exact h i (List.mem_range.mpr hi) j (List.mem_range.mpr hj) axis (by simpa using hax)

/-- C2: the Diagram Verifier `check_corner_consistency` returns `Ok` if and
only if for every lattice coordinate `(i, j)` in `[0,n) × [0,m)` and every
axis in `{0, 1}`: without a corner any existing current boundary has start
`a ≠ 0` and any existing previous boundary has end `b ≠ 1`; with a corner
the applicable current edge has a boundary with `a < EPS` and the
applicable previous edge has a boundary with `b ≥ 1 - EPS`, a missing
boundary being a violation. -/
theorem check_corner_consistency_ok_iff (EPS : ℚ) (fsd : FSD) :
    check_corner_consistency EPS fsd = Except.ok () ↔
      ∀ i ∈ List.range fsd.n, ∀ j ∈ List.range fsd.m, ∀ axis ∈ ([0, 1] : List ℕ),
        CornerConsistentAt EPS fsd i j axis :=
  corner_consistency_characterization EPS fsd

/-- An FSD with one cell, no boundaries and no corners. -/
def fsdEmpty : FSD :=
  { n := 1, m := 1, dims0 := (1, 1), dims1 := (1, 1),
    segs := fun _ => none, corners := fun _ => false }

/-- Witness for C2: the boundary-free, corner-free FSD is accepted. -/
theorem check_corner_consistency_ok_iff_witness :
    check_corner_consistency 1 fsdEmpty = Except.ok () :=
  (check_corner_consistency_ok_iff 1 fsdEmpty).mpr (by with_unfolding_all decide)

/-- The right-hand side of the corner-iff claim at one lattice vertex: all
applicable incident current-edge boundaries start within `EPS` of 0 and all
applicable incident previous-edge boundaries end within `EPS` of 1. -/
def CornerWithinConds (EPS : ℚ) (fsd : FSD) (i j : ℕ) : Prop :=
  ∀ axis ∈ ([0, 1] : List ℕ), CurrFree EPS fsd i j axis ∧ PrevFree EPS fsd i j axis

instance (EPS : ℚ) (fsd : FSD) (i j : ℕ) : Decidable (CornerWithinConds EPS fsd i j) :=
  inferInstanceAs (Decidable (∀ axis ∈ ([0, 1] : List ℕ), _ ∧ _))

/-- At a cornerless lattice vertex: no applicable current boundary starts
at exactly 0 and no applicable previous boundary ends at exactly 1. -/
def NoExactTouch (fsd : FSD) (i j : ℕ) : Prop :=
  ∀ axis ∈ ([0, 1] : List ℕ), CurrNoZero fsd i j axis ∧ PrevNoOne fsd i j axis

instance (fsd : FSD) (i j : ℕ) : Decidable (NoExactTouch fsd i j) :=
  inferInstanceAs (Decidable (∀ axis ∈ ([0, 1] : List ℕ), _ ∧ _))

deriving instance DecidableEq for Except

/-- C6 as stated for one FSD: acceptance implies that `corner (i, j)` holds
exactly when the incident boundaries are within `EPS` of the vertex. -/
def CornerIffWithin (EPS : ℚ) (fsd : FSD) : Prop :=
  check_corner_consistency EPS fsd = Except.ok () →
    ∀ i ∈ List.range fsd.n, ∀ j ∈ List.range fsd.m,
      (fsd.corners (i, j) = true ↔ CornerWithinConds EPS fsd i j)

instance (EPS : ℚ) (fsd : FSD) : Decidable (CornerIffWithin EPS fsd) :=
  inferInstanceAs (Decidable (_ → _))

/-- A 1 × 2 FSD whose every edge boundary starts within `EPS = 1/1000` of 0
and ends within `EPS` of 1 without touching either endpoint exactly, with
no corner anywhere. -/
def fsdNearCorner : FSD :=
  { n := 1, m := 2, dims0 := (1, 2), dims1 := (2, 1),
    segs := fun _ => some ⟨1 / 2000, 1 - 1 / 2000⟩,
    corners := fun _ => false }

/-- Counterexample to C6: `fsdNearCorner` is accepted by the Diagram
Verifier, all its incident boundaries at vertex `(0, 1)` start within `EPS`
of 0 resp. end within `EPS` of 1, yet `corner (0, 1)` is false — the
verifier only enforces one direction of the claimed equivalence. -/
theorem corner_iff_within_counterexample : ¬ CornerIffWithin (1 / 1000) fsdNearCorner := by
  with_unfolding_all decide

/-- Corner conditions actually guaranteed by acceptance. -/
def AcceptedCornerConds (EPS : ℚ) (fsd : FSD) : Prop :=
  ∀ i ∈ List.range fsd.n, ∀ j ∈ List.range fsd.m,
    (fsd.corners (i, j) = true → CornerWithinConds EPS fsd i j) ∧
    (fsd.corners (i, j) = false → NoExactTouch fsd i j)

/-- C6 amended: in every FSD accepted by the Diagram Verifier, a corner at
`(i, j)` forces the applicable incident boundaries to start within `EPS` of
0 and end within `EPS` of 1, and the absence of a corner forces any
existing current boundary to not start at exactly 0 and any existing
previous boundary to not end at exactly 1 (the converse direction of the
original equivalence is not enforced, see the counterexample). -/
theorem accepted_corner_conditions (EPS : ℚ) (fsd : FSD)
    (hok : check_corner_consistency EPS fsd = Except.ok ()) :
    AcceptedCornerConds EPS fsd := by
  have h := (corner_consistency_characterization EPS fsd).mp hok
  intro i hi j hj
  constructor
  · intro hc axis hax
    exact (h i hi j hj axis hax).1 hc
  · intro hc axis hax
    exact (h i hi j hj axis hax).2 hc

/-- Witness for the amended C6 at the concrete accepted FSD. -/
theorem accepted_corner_conditions_witness :
    AcceptedCornerConds (1 / 1000) fsdNearCorner :=
  accepted_corner_conditions (1 / 1000) fsdNearCorner (by with_unfolding_all decide)

-- ==================================
-- Test Orchestrator (`run_test`)
-- ==================================

/-- Testing state for storage/retrieval (`struct State`). -/
structure State where
  ps : Curve
  qs : Curve
  eps : ℚ
deriving DecidableEq, Repr

/-- Modelled from the spec: the Matching Engine capability (§6), the
external `pcm` crate entry points called by `run_test`.  `new` is
`FSD::new`, `to_rsd` is `FSD::to_rsd` (the RSD has the same shape as an
FSD), `pcm_steps` is the fallible witness extraction, `check_pcm` the
boolean partial-match query. -/
structure Engine where
  new : Curve → Curve → ℚ → FSD
  to_rsd : FSD → FSD
  pcm_steps : FSD → Except String (Option Steps)
  check_pcm : FSD → Bool

/-- Outcomes of the four diagnostic rendering calls of `run_test`
(`draw_curves`, `draw_fsd` on the FSD, on the RSD, and on the RSD with the
steps overlay).  The source drops each `Result` without inspecting it. -/
structure RenderOutcomes where
  curves : Except String Unit
  fsdImg : Except String Unit
  rsdImg : Except String Unit
  pathImg : Except String Unit

/-- Trial-level errors of `run_test`, one constructor per early-return
site. -/
inductive TrialErr where
  | corner (e : CornerErr)
  | engine (msg : String)
  | missingSteps
  | step (e : StepErr)
deriving DecidableEq, Repr

/-- The Test Orchestrator `run_test` from the source.  Each rendering
outcome is discarded exactly where the source drops the corresponding
`Result`; `none` models a Rust panic inside `check_steps`. -/
def run_test (EPS : ℚ) (eng : Engine) (r : RenderOutcomes) (state : State) :
    Option (Except TrialErr Unit) :=
  let _ := r.curves
  let fsd := eng.new state.ps state.qs state.eps
  match check_corner_consistency EPS fsd with
  | Except.error e => some (Except.error (TrialErr.corner e))
  | Except.ok _ =>
    let _ := r.fsdImg
    let rsd := eng.to_rsd fsd
    let _ := r.rsdImg
    match eng.pcm_steps rsd with
    | Except.error msg => some (Except.error (TrialErr.engine msg))
    | Except.ok opt_steps =>
      let _ := r.pathImg
      if eng.check_pcm rsd then
        match opt_steps with
        | none => some (Except.error TrialErr.missingSteps)
        | some steps =>
            match check_steps state.ps state.qs steps state.eps EPS with
            | none => none
            | some (Except.error e) => some (Except.error (TrialErr.step e))
            | some (Except.ok _) => some (Except.ok ())
      else some (Except.ok ())

/-- C3: after the engine stages succeed (corner consistency holds and
witness extraction returns), the trial outcome is decided as follows: a
true partial-match answer with an absent witness fails the trial with the
dedicated error; with a present witness the Path Validator's verdict is the
trial's verdict; a false partial-match answer passes the trial with no
further checks, whether or not a witness is present. -/
theorem run_test_after_engine (EPS : ℚ) (eng : Engine) (r : RenderOutcomes)
    (state : State) (opt : Option Steps)
    (hc : check_corner_consistency EPS (eng.new state.ps state.qs state.eps) =
      Except.ok ())
    (hs : eng.pcm_steps (eng.to_rsd (eng.new state.ps state.qs state.eps)) =
      Except.ok opt) :
    (eng.check_pcm (eng.to_rsd (eng.new state.ps state.qs state.eps)) = true →
      (opt = none →
        run_test EPS eng r state = some (Except.error TrialErr.missingSteps)) ∧
      (∀ steps, opt = some steps →
        run_test EPS eng r state =
          (check_steps state.ps state.qs steps state.eps EPS).map
            (Except.mapError TrialErr.step))) ∧
    (eng.check_pcm (eng.to_rsd (eng.new state.ps state.qs state.eps)) = false →
      run_test EPS eng r state = some (Except.ok ())) := by
  simp only [run_test]
  rw [hc, hs]
  constructor
  · intro hp
    rw [hp]
    constructor
    · intro hn
      rw [hn]
      rfl
    · intro steps hsteps
      rw [hsteps]
      simp only [if_true]
      cases hcs : check_steps state.ps state.qs steps state.eps EPS with
      | none => rfl
      | some res =>
          cases res with
          | error e => rfl
          | ok u => cases u; rfl
  · intro hp
    rw [hp]
    rfl

/-- A trivial engine for the C3 witness: the FSD is the accepted empty
diagram, a singleton witness is returned, and the match answer is true. -/
def engTriv : Engine :=
  { new := fun _ _ _ => fsdEmpty
    to_rsd := fun fsd => fsd
    pcm_steps := fun _ => Except.ok (some [(0, 0)])
    check_pcm := fun _ => true }

/-- Fixed rendering outcomes for witnesses. -/
def rOk : RenderOutcomes :=
  { curves := Except.ok (), fsdImg := Except.ok ()
    rsdImg := Except.ok (), pathImg := Except.ok () }

/-- One-point test state for witnesses. -/
def stTriv : State := { ps := [⟨0, 0⟩], qs := [⟨0, 0⟩], eps := 1 }

/-- Witness for C3: with the trivial engine the trial's verdict is the Path
Validator's verdict on the returned witness steps. -/
theorem run_test_after_engine_witness :
    run_test 1 engTriv rOk stTriv =
      (check_steps stTriv.ps stTriv.qs [(0, 0)] stTriv.eps 1).map
        (Except.mapError TrialErr.step) :=
  ((run_test_after_engine 1 engTriv rOk stTriv (some [(0, 0)])
      (by with_unfolding_all decide) rfl).1 rfl).2 [(0, 0)] rfl

/-- C7: the pass/fail result of `run_test` does not depend on the outcome
of any rendering call: two runs differing only in the rendering outcomes
return the same result, so a rendering failure is never reported as, and
never masks, the trial's verdict. -/
theorem run_test_render_independent (EPS : ℚ) (eng : Engine)
    (r r' : RenderOutcomes) (state : State) :
    run_test EPS eng r state = run_test EPS eng r' state := rfl

-- ==================================
-- Curve Generator (`curve_length`)
-- ==================================

/-- Euclidean distance with the square root kept abstract:
`p.distance(q)` in the source is `sqrt (dist2 p q)` for the hardware
`f64::sqrt`, which the model takes as a parameter. -/
def distWith (sqrt : ℚ → ℚ) (p q : Vector) : ℚ := sqrt (Vector.dist2 p q)

/-- `curve_length` from the source: starting from `0`, fold over
`zip(c, &c[1..])` adding the distance of each consecutive pair.  The slice
`&c[1..]` panics (`none`) on an empty curve. -/
def curve_length (sqrt : ℚ → ℚ) (c : Curve) : Option ℚ :=
  match sliceFrom c 1 with
  | none => none
  | some t =>
      some ((c.zip t).foldl (fun length pq => length + distWith sqrt pq.1 pq.2) 0)

theorem foldl_add_eq {α : Type _} (f : α → ℚ) (l : List α) (a : ℚ) :
    l.foldl (fun acc x => acc + f x) a = a + (l.map f).sum := by
  induction l generalizing a with
  | nil => simp
  | cons x xs ih => simp [ih, add_assoc]

theorem zip_tail_sum (sqrt : ℚ → ℚ) (c : Curve) :
    ((c.zip c.tail).map (fun pq => distWith sqrt pq.1 pq.2)).sum =
      ∑ i ∈ Finset.range (c.length - 1),
        distWith sqrt (c.getD i default) (c.getD (i + 1) default) := by
  induction c with
  | nil => simp
  | cons p rest ih =>
      cases rest with
      | nil => simp
      | cons q rest' =>
          simp only [List.tail_cons, List.zip_cons_cons, List.map_cons, List.sum_cons]
          simp only [List.tail_cons] at ih
          rw [ih]
          rw [show (p :: q :: rest' : Curve).length - 1 =
            ((q :: rest' : Curve).length - 1) + 1 by simp]
          rw [Finset.sum_range_succ']
          simp only [List.getD_cons_succ, List.getD_cons_zero]
          exact (add_comm _ _)

/-- Counterexample to C9 as stated: a zero-length curve has length ≤ 1,
but `curve_length` does not return 0 on it — the slice `&c[1..]` panics. -/
theorem curve_length_empty_counterexample :
    ([] : Curve).length ≤ 1 ∧ curve_length (fun s => s) ([] : Curve) = none :=
  ⟨by decide, rfl⟩

/-- C9 amended: on a nonempty curve, `curve_length` returns the sum of the
Euclidean distances between consecutive points, and returns 0 when the
curve has exactly one point — for any interpretation of the square root.
On the empty curve it panics (slice `&c[1..]` out of range) instead of
returning 0. -/
theorem curve_length_spec (sqrt : ℚ → ℚ) (c : Curve) (hne : c ≠ []) :
    curve_length sqrt c =
      some (∑ i ∈ Finset.range (c.length - 1),
        distWith sqrt (c.getD i default) (c.getD (i + 1) default)) ∧
    (c.length = 1 → curve_length sqrt c = some 0) := by
  obtain ⟨p, rest, rfl⟩ := List.exists_cons_of_ne_nil hne
  constructor
  · show (match sliceFrom (p :: rest) 1 with
          | none => none
          | some t =>
              some (((p :: rest).zip t).foldl
                (fun (length : ℚ) (pq : Vector × Vector) =>
                  length + distWith sqrt pq.1 pq.2) 0)) = _
    rw [sliceFrom_one_cons]
    refine congrArg some ?_
    rw [foldl_add_eq, zero_add]
    exact zip_tail_sum sqrt (p :: rest)
  · intro hlen
    cases rest with
    | nil => rfl
    | cons q rest' =>
        simp only [List.length_cons] at hlen
        omega

/-- Witness for C9: a one-point curve has length 0, and a two-point curve
has the distance of its single segment as its length. -/
theorem curve_length_spec_witness :
    curve_length (fun s => s) [⟨0, 0⟩] = some 0 ∧
    curve_length (fun s => s) [⟨0, 0⟩, ⟨2, 0⟩] =
      some (∑ i ∈ Finset.range 1,
        distWith (fun s => s)
          (List.getD [⟨0, 0⟩, ⟨2, 0⟩] i default)
          (List.getD [⟨0, 0⟩, ⟨2, 0⟩] (i + 1) default)) :=
  ⟨(curve_length_spec (fun s => s) [⟨0, 0⟩] (by simp)).2 rfl,
   (curve_length_spec (fun s => s) [⟨0, 0⟩, ⟨2, 0⟩] (by simp)).1⟩

-- ==================================
-- Case Store
-- ==================================

-- Injectivity of the decimal rendering used in `case_<N>.bin` names.

/-- Decimal digit list of a natural number, most significant first. -/
def natDigits (n : ℕ) : List Char :=
  if n < 10 then [Nat.digitChar n]
  else natDigits (n / 10) ++ [Nat.digitChar (n % 10)]
termination_by n
decreasing_by
  exact Nat.div_lt_self (by omega) (by omega)

theorem toDigitsCore_eq (fuel : ℕ) : ∀ (n : ℕ) (ds : List Char), n < fuel →
    Nat.toDigitsCore 10 fuel n ds = natDigits n ++ ds := by
  induction fuel with
  | zero => intro n ds h; exact absurd h (Nat.not_lt_zero n)
  | succ f ih =>
      intro n ds h
      simp only [Nat.toDigitsCore]
      by_cases h10 : n / 10 = 0
      · have hn : n < 10 := by omega
        rw [if_pos h10, natDigits, if_pos hn, Nat.mod_eq_of_lt hn]
        rfl
      · have hge : 10 ≤ n := by
          rcases Nat.lt_or_ge n 10 with hlt | hge
          · exact absurd (Nat.div_eq_of_lt hlt) h10
          · exact hge
        have hdlt : n / 10 < f := by
          have h1 : n / 10 < n := Nat.div_lt_self (by omega) (by omega)
          omega
        rw [if_neg h10, ih (n / 10) _ hdlt]
        conv_rhs => rw [natDigits]
        rw [if_neg (show ¬ n < 10 by omega), List.append_assoc]
        rfl

/-- Value of a decimal digit character. -/
def digitVal (c : Char) : ℕ :=
  if c = '0' then 0 else if c = '1' then 1 else if c = '2' then 2 else
  if c = '3' then 3 else if c = '4' then 4 else if c = '5' then 5 else
  if c = '6' then 6 else if c = '7' then 7 else if c = '8' then 8 else
  if c = '9' then 9 else 10

theorem digitVal_digitChar (d : ℕ) (h : d < 10) : digitVal (Nat.digitChar d) = d := by
  interval_cases d <;> rfl

theorem dec_arith (a P q r : ℕ) : 10 * (a * P + q) + r = a * (P * 10) + (10 * q + r) := by
  ring

theorem natDigits_foldl (n : ℕ) : ∀ a : ℕ,
    (natDigits n).foldl (fun acc c => 10 * acc + digitVal c) a =
      a * 10 ^ (natDigits n).length + n := by
  induction n using Nat.strong_induction_on with
  | _ n ih =>
      intro a
      by_cases h : n < 10
      · rw [natDigits, if_pos h]
        simp [digitVal_digitChar n h, Nat.mul_comm]
      · have hpos : 0 < n := by omega
        rw [natDigits, if_neg h, List.foldl_append,
          ih (n / 10) (Nat.div_lt_self hpos (by omega)) a]
        simp only [List.foldl_cons, List.foldl_nil,
          digitVal_digitChar (n % 10) (Nat.mod_lt n (by omega)),
          List.length_append, List.length_cons, List.length_nil, Nat.zero_add]
        have hmod : 10 * (n / 10) + n % 10 = n := Nat.div_add_mod n 10
        rw [pow_succ, dec_arith, hmod]

theorem natDigits_inj {a b : ℕ} (h : natDigits a = natDigits b) : a = b := by
  have ha := natDigits_foldl a 0
  have hb := natDigits_foldl b 0
  rw [Nat.zero_mul, Nat.zero_add] at ha hb
  rw [h, hb] at ha
  exact ha.symm

theorem repr_eq_natDigits (n : ℕ) : Nat.repr n = (natDigits n).asString := by
  show (Nat.toDigits 10 n).asString = _
  unfold Nat.toDigits
  rw [toDigitsCore_eq (n + 1) n [] (Nat.lt_succ_self n), List.append_nil]

theorem repr_injective {a b : ℕ} (h : Nat.repr a = Nat.repr b) : a = b := by
  rw [repr_eq_natDigits, repr_eq_natDigits] at h
  exact natDigits_inj (congrArg String.data h)

/-- Name of the `N`-th corpus record: `case_<N>.bin`. -/
def caseName (n : ℕ) : String := "case_" ++ Nat.repr n ++ ".bin"

theorem caseName_inj {a b : ℕ} (h : caseName a = caseName b) : a = b := by
  unfold caseName at h
  have hd := congrArg String.data h
  simp only [String.data_append] at hd
  have h1 := List.append_cancel_right hd
  have h2 := List.append_cancel_left h1
  exact repr_injective (String.ext h2)

/-- Modelled from the spec: the `bincode` binary serialization of a curve
(the crate is outside this repository) — a length-prefixed sequence of
`(x, y)` coordinates, the byte stream idealized as a list of rationals
(§6: content = binary-serialized sequences of doubles). -/
def encodeCurve (c : Curve) : List ℚ :=
  (c.length : ℚ) :: c.flatMap (fun p => [p.x, p.y])

/-- Modelled from the spec: serialized `State`
`{primaryCurve, secondaryCurve, epsilon}`. -/
def encodeState (s : State) : List ℚ :=
  encodeCurve s.ps ++ encodeCurve s.qs ++ [s.eps]

/-- Modelled from the spec: deserialization of a coordinate block of known
point count, returning the remaining stream. -/
def decodePoints : ℕ → List ℚ → Option (Curve × List ℚ)
  | 0, rest => some ([], rest)
  | k + 1, x :: y :: rest =>
      match decodePoints k rest with
      | some (ps, r) => some (⟨x, y⟩ :: ps, r)
      | none => none
  | _ + 1, _ => none

/-- Modelled from the spec: deserialization of a length-prefixed curve. -/
def decodeCurve (l : List ℚ) : Option (Curve × List ℚ) :=
  match l with
  | q :: rest =>
      if q.den = 1 ∧ 0 ≤ q.num then decodePoints q.num.toNat rest else none
  | [] => none

/-- Modelled from the spec: deserialization of a `State` record; trailing
garbage or a short stream fails, as `bincode::deserialize` does. -/
def decodeState (l : List ℚ) : Option State :=
  match decodeCurve l with
  | some (ps, r1) =>
      match decodeCurve r1 with
      | some (qs, r2) =>
          match r2 with
          | [e] => some ⟨ps, qs, e⟩
          | _ => none
      | none => none
  | none => none

theorem decodePoints_encode (c : Curve) (rest : List ℚ) :
    decodePoints c.length (c.flatMap (fun p => [p.x, p.y]) ++ rest) = some (c, rest) := by
  induction c with
  | nil => rfl
  | cons p ps ih =>
      show decodePoints (ps.length + 1)
        (p.x :: p.y :: (ps.flatMap (fun p => [p.x, p.y]) ++ rest)) = _
      rw [decodePoints, ih]

theorem decodeCurve_encode (c : Curve) (rest : List ℚ) :
    decodeCurve (encodeCurve c ++ rest) = some (c, rest) := by
  unfold encodeCurve decodeCurve
  simp only [List.cons_append]
  rw [if_pos ⟨Rat.den_natCast c.length, by simp [Rat.num_natCast]⟩]
  have hn : ((c.length : ℚ)).num.toNat = c.length := by
    simp [Rat.num_natCast]
  rw [hn]
  exact decodePoints_encode c rest

theorem decodeState_encode (s : State) : decodeState (encodeState s) = some s := by
  unfold encodeState decodeState
  rw [List.append_assoc]
  simp only [decodeCurve_encode]

-- Filesystem model.

/-- Modelled from the spec: the corpus directory, a sequence of named
binary records in creation order (the order `list_files_in_subfolder`
reports). -/
abbrev Dir := List (String × List ℚ)

/-- `list_files_in_subfolder` from the source: the names of the records. -/
def list_files_in_subfolder (d : Dir) : List String := d.map Prod.fst

/-- Modelled from the spec: `File::create` truncates an existing file of
that name, otherwise creates a new one. -/
def createFile (d : Dir) (name : String) (content : List ℚ) : Dir :=
  if name ∈ list_files_in_subfolder d then
    d.map (fun p => if p.1 = name then (name, content) else p)
  else d ++ [(name, content)]

/-- `write_new_testcase` from the source: serialize the state, count the
records in the corpus directory, and write `case_<count>.bin`. -/
def write_new_testcase (d : Dir) (s : State) : Dir :=
  createFile d (caseName (list_files_in_subfolder d).length) (encodeState s)

/-- `read_cases` from the source: deserialize every listed record in
listing order; the first record that fails to parse aborts the load. -/
def read_cases : Dir → Option (List State)
  | [] => some []
  | p :: rest =>
      match decodeState p.2 with
      | some st =>
          match read_cases rest with
          | some sts => some (st :: sts)
          | none => none
      | none => none

theorem read_cases_append_single (d : Dir) (x : String × List ℚ) (st : State)
    (hx : decodeState x.2 = some st) :
    ∀ l, read_cases d = some l → read_cases (d ++ [x]) = some (l ++ [st]) := by
  induction d with
  | nil =>
      intro l h
      cases h
      show read_cases [x] = _
      rw [read_cases, hx]
      rfl
  | cons p rest ih =>
      intro l h
      rw [read_cases] at h
      cases hd : decodeState p.2 with
      | none => rw [hd] at h; cases h
      | some st' =>
          rw [hd] at h
          cases hr : read_cases rest with
          | none => rw [hr] at h; cases h
          | some sts =>
              rw [hr] at h
              cases h
              show read_cases (p :: (rest ++ [x])) = _
              rw [read_cases, hd, ih sts hr]
              rfl

theorem read_cases_map_replace (d : Dir) (name : String) (content : List ℚ)
    (st : State) (hc : decodeState content = some st) :
    ∀ l, read_cases d = some l →
      ∃ l', read_cases (d.map (fun p => if p.1 = name then (name, content) else p)) =
          some l' ∧ (name ∈ list_files_in_subfolder d → st ∈ l') := by
  induction d with
  | nil =>
      intro l h
      exact ⟨[], rfl, by simp [list_files_in_subfolder]⟩
  | cons p rest ih =>
      intro l h
      rw [read_cases] at h
      cases hd : decodeState p.2 with
      | none => rw [hd] at h; cases h
      | some st' =>
          rw [hd] at h
          cases hr : read_cases rest with
          | none => rw [hr] at h; cases h
          | some sts =>
              rw [hr] at h
              cases h
              obtain ⟨l'', hl'', hm⟩ := ih sts hr
              by_cases hp : p.1 = name
              · refine ⟨st :: l'', ?_, fun _ => List.mem_cons_self st l''⟩
                show read_cases ((if p.1 = name then (name, content) else p) ::
                  rest.map _) = _
                rw [if_pos hp, read_cases]
                show (match decodeState content with
                  | some st =>
                      match read_cases (rest.map _) with
                      | some sts => some (st :: sts)
                      | none => none
                  | none => none) = _
                rw [hc, hl'']
              · refine ⟨st' :: l'', ?_, ?_⟩
                · show read_cases ((if p.1 = name then (name, content) else p) ::
                    rest.map _) = _
                  rw [if_neg hp, read_cases, hd, hl'']
                · intro hmem
                  rcases List.mem_cons.mp hmem with heq | hmem'
                  · exact absurd heq.symm hp
                  · exact List.mem_cons_of_mem st' (hm hmem')

/-- C4: persisting a `State` with `write_new_testcase` and reloading the
corpus with `read_cases` yields the persisted state back, its curves and
epsilon exactly equal (assuming the pre-existing corpus loads). -/
theorem write_then_read (d : Dir) (s : State) (l : List State)
    (h : read_cases d = some l) :
    ∃ l', read_cases (write_new_testcase d s) = some l' ∧ s ∈ l' := by
  unfold write_new_testcase createFile
  by_cases hmem :
    caseName (list_files_in_subfolder d).length ∈ list_files_in_subfolder d
  · rw [if_pos hmem]
    obtain ⟨l', hl', hm⟩ :=
      read_cases_map_replace d _ (encodeState s) s (decodeState_encode s) l h
    exact ⟨l', hl', hm hmem⟩
  · rw [if_neg hmem]
    exact ⟨l ++ [s],
      read_cases_append_single d _ s (decodeState_encode s) l h, by simp⟩

/-- Witness for C4: persisting into an empty corpus and reloading returns
the state. -/
theorem write_then_read_witness :
    ∃ l', read_cases (write_new_testcase [] stTriv) = some l' ∧ stTriv ∈ l' :=
  write_then_read [] stTriv [] rfl

/-- Sequential persistence of a list of failing cases, as the driver loop
does one write per failing trial. -/
def persistAll (d : Dir) (ss : List State) : Dir := ss.foldl write_new_testcase d

/-- The corpus obtained by persisting `ss` under identifiers `k, k+1, …` -/
def expectedDir : ℕ → List State → Dir
  | _, [] => []
  | k, s :: ss => (caseName k, encodeState s) :: expectedDir (k + 1) ss

theorem listFiles_expectedDir (ss : List State) : ∀ k : ℕ,
    list_files_in_subfolder (expectedDir k ss) =
      (List.range' k ss.length).map caseName := by
  induction ss with
  | nil => intro k; rfl
  | cons s rest ih =>
      intro k
      show caseName k :: list_files_in_subfolder (expectedDir (k + 1) rest) = _
      rw [ih (k + 1)]
      rfl

theorem expectedDir_append_single (ss : List State) (s : State) : ∀ k,
    expectedDir k (ss ++ [s]) =
      expectedDir k ss ++ [(caseName (k + ss.length), encodeState s)] := by
  induction ss with
  | nil =>
      intro k
      show (caseName k, encodeState s) :: [] = [(caseName (k + 0), encodeState s)]
      rw [Nat.add_zero]
  | cons t rest ih =>
      intro k
      show (caseName k, encodeState t) :: expectedDir (k + 1) (rest ++ [s]) = _
      rw [ih (k + 1)]
      have hidx : k + 1 + rest.length = k + (rest.length + 1) := by omega
      rw [hidx]
      rfl

theorem write_expected (ds : List State) (s : State) :
    write_new_testcase (expectedDir 0 ds) s = expectedDir 0 (ds ++ [s]) := by
  unfold write_new_testcase createFile
  have hfiles := listFiles_expectedDir ds 0
  have hlen : (list_files_in_subfolder (expectedDir 0 ds)).length = ds.length := by
    rw [hfiles, List.length_map, List.length_range']
  have hmem : caseName (list_files_in_subfolder (expectedDir 0 ds)).length ∉
      list_files_in_subfolder (expectedDir 0 ds) := by
    rw [hlen, hfiles]
    intro hmem
    obtain ⟨jj, hj, hcj⟩ := List.mem_map.mp hmem
    have hj' := List.mem_range'_1.mp hj
    exact absurd (caseName_inj hcj) (by omega)
  rw [if_neg hmem, hlen, expectedDir_append_single ds s 0, Nat.zero_add]

theorem persistAll_eq (todo : List State) : ∀ ds : List State,
    persistAll (expectedDir 0 ds) todo = expectedDir 0 (ds ++ todo) := by
  induction todo with
  | nil => intro ds; simp [persistAll]
  | cons s rest ih =>
      intro ds
      show persistAll (write_new_testcase (expectedDir 0 ds) s) rest = _
      rw [write_expected, ih (ds ++ [s]), List.append_assoc]
      rfl

/-- C5: persisting `K` cases sequentially from an empty corpus creates
exactly the records `case_0.bin … case_(K-1).bin` in order, with no gap
and no identifier reuse; no write ever targets an existing name (so no
record is overwritten), and the identifier a write uses is the current
record count of the directory. -/
theorem persist_monotonic_naming (ss : List State) :
    list_files_in_subfolder (persistAll [] ss) =
      (List.range ss.length).map caseName ∧
    (∀ k, k < ss.length →
      caseName k ∉ list_files_in_subfolder (persistAll [] (ss.take k))) ∧
    (∀ d s, write_new_testcase d s =
      createFile d (caseName (list_files_in_subfolder d).length) (encodeState s)) := by
  have hmain : ∀ tt : List State, persistAll [] tt = expectedDir 0 tt := by
    intro tt
    have h := persistAll_eq tt []
    simpa using h
  refine ⟨?_, ?_, fun d s => rfl⟩
  · rw [hmain ss, listFiles_expectedDir ss 0, List.range_eq_range']
  · intro k hk
    rw [hmain (ss.take k), listFiles_expectedDir _ 0]
    intro hmem
    obtain ⟨jj, hj, hcj⟩ := List.mem_map.mp hmem
    have hj' := List.mem_range'_1.mp hj
    have hlenk : (ss.take k).length = k := by
      rw [List.length_take]
      omega
    exact absurd (caseName_inj hcj) (by omega)

/-- Distinct concrete states for the C5 witness. -/
def stA : State := { ps := [⟨0, 0⟩], qs := [⟨0, 0⟩], eps := 1 }

/-- Second concrete state for the C5 witness. -/
def stB : State := { ps := [⟨1, 0⟩], qs := [⟨1, 0⟩], eps := 2 }

/-- Witness for C5: persisting two cases from an empty corpus yields
`case_0.bin` then `case_1.bin`, and the second write's name is fresh. -/
theorem persist_monotonic_naming_witness :
    list_files_in_subfolder (persistAll [] [stA, stB]) =
      (List.range 2).map caseName ∧
    caseName 1 ∉ list_files_in_subfolder (persistAll [] ([stA, stB].take 1)) :=
  ⟨(persist_monotonic_naming [stA, stB]).1,
   (persist_monotonic_naming [stA, stB]).2.1 1 (by decide)⟩

end PCMVis
